import Mathlib

/-!
Verification of the `codex-config` synchronization scripts
(`scripts/sync_remote_skills.py` and `scripts/sync_to_codex.py`).

The Python code is shallowly embedded: pure string/path computations become
Lean functions on `String` / `List Char`; the file system touched by the
local-sync workflow becomes an explicit association list from relative-path
components to entries; external process execution is abstracted by passing
the completed process result (exit code, captured stdout/stderr) as data.
Digits are modelled as ASCII decimal digits (the inputs handled by the
scripts are ASCII version strings and repository paths).
-/

namespace CodexConfig

/-- ASCII decimal digit test, modelling `\d` of `re` and `str.isdigit`
on the ASCII inputs these scripts handle. -/
def isDigitChar (c : Char) : Bool := c.isDigit

/-- Splits a character list into its maximal leading run of digits and the
rest; models how the regex atom `\d+` consumes input greedily. -/
def takeDigits : List Char → List Char × List Char
  | [] => ([], [])
  | c :: cs =>
    if isDigitChar c then
      let p := takeDigits cs
      (c :: p.1, p.2)
    else ([], c :: cs)

/-- Attempts to match the anchored pattern `\d+\.\d+\.\d+` at the head of the
input, returning the matched characters.  Because `\d` and `\.` are disjoint,
the greedy regex backtracking of `SEMVER_PATTERN` coincides with taking each
maximal digit run. -/
def matchSemverAt (cs : List Char) : Option (List Char) :=
  match takeDigits cs with
  | (a, r1) =>
    if a.isEmpty then none
    else
      match r1 with
      | [] => none
      | c1 :: r2 =>
        if c1 = '.' then
          match takeDigits r2 with
          | (b, r3) =>
            if b.isEmpty then none
            else
              match r3 with
              | [] => none
              | c2 :: r4 =>
                if c2 = '.' then
                  match takeDigits r4 with
                  | (c, _) =>
                    if c.isEmpty then none
                    else some (a ++ '.' :: (b ++ '.' :: c))
                else none
        else none

/-- Leftmost search for `SEMVER_PATTERN` (`re.Pattern.search`): try to match
at every position from the left, returning the first success. -/
def searchSemver : List Char → Option (List Char)
  | [] => none
  | c :: cs =>
    match matchSemverAt (c :: cs) with
    | some m => some m
    | none => searchSemver cs

/-- `extract_semver` from `sync_remote_skills.py`: return the first substring
matching `SEMVER_PATTERN`, or raise `SyncExecutionError`. -/
def extract_semver (raw_text : String) (source : String) : Except String String :=
  match searchSemver raw_text.data with
  | some m => .ok (String.mk m)
  | none =>
    .error ("Unable to parse semantic version from " ++ source ++ ": " ++ raw_text ++
      ". Suggested fix: inspect command output format.")

/-- `str.split(".")` on the underlying characters: dot-separated fields,
empty fields preserved. -/
def splitDot : List Char → List (List Char)
  | [] => [[]]
  | c :: cs =>
    if c = '.' then [] :: splitDot cs
    else
      match splitDot cs with
      | h :: t => (c :: h) :: t
      | [] => [[c]]

/-- A nonempty all-digit field, modelling `part.isdigit()` for ASCII parts
(`"".isdigit()` is false). -/
def isDigitString (p : List Char) : Bool := !p.isEmpty && p.all isDigitChar

/-- Numeric value of an ASCII digit string, modelling `int(part)`. -/
def digitsToNat (p : List Char) : Nat :=
  p.foldl (fun n c => 10 * n + (c.toNat - '0'.toNat)) 0

/-- `parse_semver` from `sync_remote_skills.py`: split on `"."`, require
exactly three all-digit components, return the numeric triple, otherwise
raise `SyncExecutionError`. -/
def parse_semver (version_text : String) : Except String (Nat × Nat × Nat) :=
  match splitDot version_text.data with
  | [p0, p1, p2] =>
    if isDigitString p0 && isDigitString p1 && isDigitString p2 then
      .ok (digitsToNat p0, digitsToNat p1, digitsToNat p2)
    else
      .error ("Invalid semantic version: " ++ version_text ++
        ". Suggested fix: provide a value like 1.2.3.")
  | _ =>
    .error ("Invalid semantic version: " ++ version_text ++
      ". Suggested fix: provide a value like 1.2.3.")

/-- Python tuple `<` on `(int, int, int)`: lexicographic comparison. -/
def tupleLt (a b : Nat × Nat × Nat) : Bool :=
  decide (a.1 < b.1) ||
    (decide (a.1 = b.1) &&
      (decide (a.2.1 < b.2.1) ||
        (decide (a.2.1 = b.2.1) && decide (a.2.2 < b.2.2))))

/-- `should_upgrade_agent_browser`: `True` when the CLI is missing, otherwise
the comparison `parse_semver(installed) < parse_semver(latest)` (either parse
failure propagates as `SyncExecutionError`). -/
def should_upgrade_agent_browser (installed_version : Option String)
    (latest_version : String) : Except String Bool :=
  match installed_version with
  | none => .ok true
  | some v =>
    match parse_semver v with
    | .error e => .error e
    | .ok a =>
      match parse_semver latest_version with
      | .error e => .error e
      | .ok b => .ok (tupleLt a b)

/-! ## Path and file-system model for `sync_to_codex.py` -/

/-- A `pathlib` pure path: whether it is absolute, and its non-root
components (`Path.parts`, with the root component represented by the
`absolute` flag). -/
structure PPath where
  absolute : Bool
  parts : List String
deriving DecidableEq, Repr

/-- `Path.as_posix()` for this model. -/
def PPath.as_posix (p : PPath) : String :=
  (if p.absolute then "/" else "") ++ String.intercalate "/" p.parts

/-- `str.split("/")` on the underlying characters: slash-separated fields,
empty fields preserved. -/
def splitSlash : List Char → List (List Char)
  | [] => [[]]
  | c :: cs =>
    if c = '/' then [] :: splitSlash cs
    else
      match splitSlash cs with
      | h :: t => (c :: h) :: t
      | [] => [[c]]

/-- `Path(text)` for a posix path string: split on `/`; empty components and
`.` are dropped by `pathlib` normalization, `..` is kept. -/
def pathOfString (s : String) : PPath :=
  { absolute :=
      match s.data with
      | '/' :: _ => true
      | _ => false
    parts :=
      ((splitSlash s.data).filter
        (fun comp => !comp.isEmpty && comp ≠ ['.'])).map String.mk }

/-- The whitespace characters removed by Python `str.strip()`. -/
def isSpaceChar (c : Char) : Bool :=
  c = ' ' || c = '\t' || c = '\n' || c = '\r' || c = '\x0b' || c = '\x0c'

/-- `str.strip()` on the underlying characters. -/
def stripChars (l : List Char) : List Char :=
  ((l.dropWhile isSpaceChar).reverse.dropWhile isSpaceChar).reverse

/-- `str.strip()`. -/
def strip (s : String) : String := String.mk (stripChars s.data)

/-- Code-point lexicographic `≤` on character lists: how Python compares the
`as_posix()` sort keys. -/
def lexLe : List Char → List Char → Bool
  | [], _ => true
  | _ :: _, [] => false
  | a :: as, b :: bs => if a = b then lexLe as bs else decide (a < b)

/-- One entry of the modelled file system: a regular file with its contents,
or a directory. -/
inductive FSEntry where
  | file (content : String)
  | dir
deriving DecidableEq, Repr

/-- The repository (or destination) tree, as an association list from
repository-relative path components to entries.  Lookup takes the first
binding, so prepending a binding overwrites. -/
def FS : Type := List (List String × FSEntry)

/-- First-binding lookup in the file-system model. -/
def lookupFS : FS → List String → Option FSEntry
  | [], _ => none
  | kv :: rest, q => if kv.1 = q then some kv.2 else lookupFS rest q

/-- Writing a file: the copy `shutil.copy2(source, destination)` of
`sync_files`, modelled as an overwriting insert at the relative path. -/
def insertFS (fs : FS) (k : List String) (e : FSEntry) : FS := (k, e) :: fs

/-- `validate_relative_file` from `sync_to_codex.py`: reject absolute paths
and paths with a `..` component, then require that the path exists under the
repository root and is a regular file. -/
def validate_relative_file (repo : FS) (relative_path : PPath)
    (operation : String) : Except String Unit :=
  if relative_path.absolute || relative_path.parts.contains ".." then
    .error (operation ++ " failed. Invalid relative path: " ++
      relative_path.as_posix ++
      ". Suggested fix: ensure paths are repository-relative and do not escape the root.")
  else
    match lookupFS repo relative_path.parts with
    | none =>
      .error (operation ++ " failed. Source file is missing: " ++
        relative_path.as_posix ++
        ". Suggested fix: create the file or update the sync allowlist.")
    | some .dir =>
      .error (operation ++ " failed. Source path is not a file: " ++
        relative_path.as_posix ++
        ". Suggested fix: ensure allowlist contains file paths only.")
    | some (.file _) => .ok ()

/-- Comparison key used by `sorted(..., key=lambda path: path.as_posix())`. -/
def posixLe (a b : PPath) : Prop :=
  lexLe a.as_posix.data b.as_posix.data = true

instance : DecidableRel posixLe := fun a b =>
  inferInstanceAs (Decidable (lexLe a.as_posix.data b.as_posix.data = true))

instance : IsTotal PPath posixLe where
  total a b := by
    have h : ∀ x y : List Char, lexLe x y = true ∨ lexLe y x = true := by
      intro x
      induction x with
      | nil => intro y; exact Or.inl rfl
      | cons a as ih =>
        intro y
        cases y with
        | nil => exact Or.inr rfl
        | cons b bs =>
          by_cases he : a = b
          · subst he
            rcases ih bs with h | h
            · exact Or.inl (by simp [lexLe, h])
            · exact Or.inr (by simp [lexLe, h])
          · rcases lt_trichotomy a b with hlt | heq | hgt
            · exact Or.inl (by simp [lexLe, he, hlt])
            · exact absurd heq he
            · exact Or.inr (by simp [lexLe, Ne.symm he, hgt])
    exact h a.as_posix.data b.as_posix.data

instance : IsTrans PPath posixLe where
  trans a b c hab hbc := by
    have h : ∀ x y z : List Char,
        lexLe x y = true → lexLe y z = true → lexLe x z = true := by
      intro x
      induction x with
      | nil => intro y z _ _; rfl
      | cons a as ih =>
        intro y z hxy hyz
        cases y with
        | nil => simp [lexLe] at hxy
        | cons b bs =>
          cases z with
          | nil => simp [lexLe] at hyz
          | cons c2 cs =>
            by_cases hab2 : a = b
            · subst hab2
              by_cases hbc2 : a = c2
              · subst hbc2
                simp only [lexLe, if_pos rfl] at hxy hyz ⊢
                exact ih bs cs hxy hyz
              · simp only [lexLe, hbc2, if_false, if_pos rfl] at hyz ⊢
                exact hyz
            · by_cases hbc2 : b = c2
              · subst hbc2
                simp only [lexLe, hab2, if_false] at hxy ⊢
                exact hxy
              · simp only [lexLe, hab2, hbc2, if_false,
                  decide_eq_true_iff] at hxy hyz
                have hac : a < c2 := lt_trans hxy hyz
                simp [lexLe, ne_of_lt hac, hac]
    exact h a.as_posix.data b.as_posix.data c.as_posix.data hab hbc

/-- `sorted(set(paths), key=lambda path: path.as_posix())`: deduplicate, then
sort by the posix string. -/
def sortedUnique (paths : List PPath) : List PPath :=
  List.insertionSort posixLe paths.dedup

/-- The allowlist `SYNC_FILE_TARGETS` of `sync_to_codex.py`. -/
def SYNC_FILE_TARGETS : List PPath :=
  [pathOfString "config.toml", pathOfString "AGENTS.md", pathOfString "notify.ps1"]

/-- The loop body of `collect_tracked_directory_files`: strip each line of
the `git ls-files` output, skip empties, validate each entry (any failure
aborts), and collect the parsed paths in order. -/
def collectTrackedLines (repo : FS) : List String → Except String (List PPath)
  | [] => .ok []
  | line :: rest =>
    let text := strip line
    if text.data.isEmpty then collectTrackedLines repo rest
    else
      match validate_relative_file repo (pathOfString text)
          "Validate git-tracked file entry" with
      | .error e => .error e
      | .ok _ =>
        match collectTrackedLines repo rest with
        | .error e => .error e
        | .ok l => .ok (pathOfString text :: l)

/-- `collect_tracked_directory_files`, with the textual output of
`git ls-files` supplied as its list of lines (the external `git` process is
abstracted as this input). -/
def collect_tracked_directory_files (repo : FS) (gitOutput : List String) :
    Except String (List PPath) :=
  match collectTrackedLines repo gitOutput with
  | .error e => .error e
  | .ok tracked => .ok (sortedUnique tracked)

/-- The allowlist loop of `collect_sync_files`: validate every allowlisted
file eagerly, in order, collecting them all. -/
def validateAllowlist (repo : FS) : List PPath → Except String (List PPath)
  | [] => .ok []
  | p :: rest =>
    match validate_relative_file repo p "Validate allowlisted file" with
    | .error e => .error e
    | .ok _ =>
      match validateAllowlist repo rest with
      | .error e => .error e
      | .ok l => .ok (p :: l)

/-- `collect_sync_files`: the validated allowlist plus the git-tracked files,
deduplicated and sorted by posix path. -/
def collect_sync_files (repo : FS) (gitOutput : List String) :
    Except String (List PPath) :=
  match validateAllowlist repo SYNC_FILE_TARGETS with
  | .error e => .error e
  | .ok selected =>
    match collect_tracked_directory_files repo gitOutput with
    | .error e => .error e
    | .ok tracked => .ok (sortedUnique (selected ++ tracked))

/-- `sync_files`: for each relative path, re-validate it, then copy the
repository file over the destination path (parent directories are created as
needed; an existing destination file is overwritten).  Returns the final
destination tree together with the copied-file count, or the error that
aborted the loop (the destination then retains all copies made so far). -/
def sync_files (repo : FS) (dest : FS) : List PPath → FS × Except String Nat
  | [] => (dest, .ok 0)
  | p :: rest =>
    match validate_relative_file repo p "Validate source file before copy" with
    | .error e => (dest, .error e)
    | .ok _ =>
      match lookupFS repo p.parts with
      | some (.file c) =>
        match sync_files repo (insertFS dest p.parts (.file c)) rest with
        | (d, .ok n) => (d, .ok (n + 1))
        | (d, .error e) => (d, .error e)
      | _ => (dest, .error "unreachable: validation guarantees a regular file")

/-- `execute_workflow` of `sync_to_codex.py`: collect, then copy.  Returns
the final destination tree and either the copied-file count or the aborting
error. -/
def execute_workflow (repo : FS) (gitOutput : List String) (dest : FS) :
    FS × Except String Nat :=
  match collect_sync_files repo gitOutput with
  | .error e => (dest, .error e)
  | .ok files => sync_files repo dest files

/-! ## Command execution model -/

/-- Result of a completed subprocess (`subprocess.run` with
`capture_output=True, text=True, check=False`). -/
structure CompletedProcess where
  returncode : Int
  stdout : String
  stderr : String

/-- `(stream or "").strip() or "<empty>"`: the trimmed stream, with the
placeholder substituted when it is empty. -/
def orPlaceholder (s : String) : String :=
  if (strip s).data.isEmpty then "<empty>" else strip s

/-- `subprocess.list2cmdline`, modelled for argument tokens without embedded
quote or backslash characters: an argument is quoted exactly when it is empty
or contains a space or tab, and arguments are joined with single spaces. -/
def list2cmdline (args : List String) : String :=
  String.intercalate " "
    (args.map fun a =>
      if a.data.isEmpty || a.data.contains ' ' || a.data.contains '\t' then
        "\"" ++ a ++ "\""
      else a)

/-- Substring containment on the underlying character lists. -/
def SContains (s t : String) : Prop :=
  ∃ l r : List Char, s.data = l ++ (t.data ++ r)

/-- `run_command` from `sync_to_codex.py`, with the completed subprocess
passed as data: exit code zero returns the trimmed stdout, anything else
raises the structured `SyncExecutionError` message. -/
def run_command_local (args : List String) (operation : String)
    (completed : CompletedProcess) : Except String String :=
  if completed.returncode = 0 then .ok (strip completed.stdout)
  else
    .error (operation ++ " failed.\nCommand: " ++ list2cmdline args ++
      "\nExit code: " ++ toString completed.returncode ++
      "\nstderr: " ++ orPlaceholder completed.stderr ++
      "\nstdout: " ++ orPlaceholder completed.stdout ++ "\n" ++
      "Suggested fix: verify repository state, command availability, and file permissions.")

/-- `run_command` from `sync_remote_skills.py`: `resolved` is the result of
`find_executable` (abstracting PATH search); a missing command raises before
launching, an exit code of zero returns the trimmed stdout, and a non-zero
exit raises the structured message built from the resolved command line. -/
def run_command_remote (args : List String) (operation : String)
    (resolved : Option String) (completed : CompletedProcess) :
    Except String String :=
  let command_name := args.headD "<missing-command>"
  match resolved with
  | none =>
    .error (operation ++ " failed. Command not found: " ++ command_name ++
      ". Suggested fix: install the command and ensure it is on PATH.")
  | some r =>
    if completed.returncode = 0 then .ok (strip completed.stdout)
    else
      .error (operation ++ " failed.\nCommand: " ++
        list2cmdline (r :: args.tail) ++
        "\nExit code: " ++ toString completed.returncode ++
        "\nstderr: " ++ orPlaceholder completed.stderr ++
        "\nstdout: " ++ orPlaceholder completed.stdout ++ "\n" ++
        "Suggested fix: verify network access, repository permissions, and PATH configuration.")

/-! ## `maintain_agent_browser` model -/

/-- The two install effects whose gating `maintain_agent_browser`
implements. -/
inductive BAction where
  | npmInstall
  | browserInstall
deriving DecidableEq, Repr

/-- The external world as seen by one run of `maintain_agent_browser`:
the initially installed CLI version (`none` when the binary is absent), the
latest version reported by npm (both already extracted by `extract_semver`
during the version reads), the exit status of `npm install -g agent-browser`,
the version re-read after that install, and the exit status of
`agent-browser install`. -/
structure BrowserEnv where
  installed0 : Option String
  latest : String
  npmInstallOk : Bool
  installed1 : Option String
  browserInstallOk : Bool

/-- `maintain_agent_browser`: decide the upgrade via
`should_upgrade_agent_browser`; when an upgrade is needed run the global npm
install, fail if the CLI is still absent afterwards, and only then run
`agent-browser install`; when no upgrade is needed skip both installs.
Returns the list of install commands executed on a completed run. -/
def maintain_agent_browser (env : BrowserEnv) : Except String (List BAction) :=
  match should_upgrade_agent_browser env.installed0 env.latest with
  | .error e => .error e
  | .ok true =>
    if env.npmInstallOk then
      match env.installed1 with
      | none =>
        .error ("agent-browser remains unavailable after npm global install. " ++
          "Suggested fix: ensure npm global bin directory is on PATH.")
      | some _ =>
        if env.browserInstallOk then .ok [.npmInstall, .browserInstall]
        else .error "Install Chromium via agent-browser failed."
    else .error "Install or upgrade agent-browser globally failed."
  | .ok false => .ok []

/-! ## Specification-side predicates -/

/-- A character list of the exact shape `\d+\.\d+\.\d+`: three nonempty
all-digit components separated by dots. -/
def SemverShape (l : List Char) : Prop :=
  ∃ a b c : List Char,
    l = a ++ '.' :: (b ++ '.' :: c) ∧
      isDigitString a = true ∧ isDigitString b = true ∧ isDigitString c = true

/-- The text contains some substring of shape `\d+\.\d+\.\d+`. -/
def ContainsSemver (l : List Char) : Prop :=
  ∃ pre m post : List Char, l = pre ++ (m ++ post) ∧ SemverShape m

/-- The spec's upgrade condition, stated independently of the code path:
the installed CLI is absent, or both versions parse and the installed triple
is strictly smaller in lexicographic (component-wise numeric) order. -/
def specUpgradeNeeded (installed : Option String) (latest : String) : Prop :=
  installed = none ∨
    ∃ v ta tb, installed = some v ∧
      parse_semver v = .ok ta ∧ parse_semver latest = .ok tb ∧
      (ta.1 < tb.1 ∨
        (ta.1 = tb.1 ∧
          (ta.2.1 < tb.2.1 ∨ (ta.2.1 = tb.2.1 ∧ ta.2.2 < tb.2.2))))

/-- The paths the `git ls-files` lines denote: each line trimmed, empty
lines dropped, the rest parsed as paths, in order. -/
def parsedGitLines : List String → List PPath
  | [] => []
  | line :: rest =>
    if (strip line).data.isEmpty then parsedGitLines rest
    else pathOfString (strip line) :: parsedGitLines rest

/-- Rejoins dot-separated fields; inverse of `splitDot`. -/
def joinDot : List (List Char) → List Char
  | [] => []
  | [x] => x
  | x :: xs => x ++ '.' :: joinDot xs

/-- A sample repository tree used to instantiate the theorems about the
local-sync workflow on concrete input. -/
def sampleRepo : FS :=
  [ (["config.toml"], .file "root = 1"),
    (["AGENTS.md"], .file "agents"),
    (["notify.ps1"], .file "notify"),
    (["skills", "demo.md"], .file "demo") ]

/-- A sample repository tree missing the allowlisted file `config.toml`. -/
def sampleRepoMissing : FS :=
  [ (["AGENTS.md"], .file "agents"),
    (["notify.ps1"], .file "notify") ]

/-- A destination tree with one unrelated file and one stale copy, used to
instantiate the copy theorems on concrete input. -/
def sampleDest : FS :=
  [ (["unrelated.txt"], .file "keep"),
    (["config.toml"], .file "old") ]

/-- The destination tree after the sample copy: both selected files written,
the unrelated file and the shadowed stale entry still behind them. -/
def sampleDestAfter : FS :=
  [ (["skills", "demo.md"], .file "demo"),
    (["config.toml"], .file "root = 1"),
    (["unrelated.txt"], .file "keep"),
    (["config.toml"], .file "old") ]

/-! ## Lemmas: greedy digit runs and the semver pattern -/

theorem takeDigits_append_rest (l : List Char) :
    (takeDigits l).1 ++ (takeDigits l).2 = l := by
  induction l with
  | nil => rfl
  | cons c cs ih =>
    by_cases h : isDigitChar c = true
    · simp [takeDigits, h, ih]
    · simp [takeDigits, h]

theorem takeDigits_all_digits (l : List Char) :
    ∀ c ∈ (takeDigits l).1, isDigitChar c = true := by
  induction l with
  | nil => intro c hc; simp [takeDigits] at hc
  | cons x cs ih =>
    intro c hc
    by_cases h : isDigitChar x = true
    · simp only [takeDigits, h, if_true] at hc
      rcases List.mem_cons.mp hc with rfl | hc2
      · exact h
      · exact ih c hc2
    · simp [takeDigits, h] at hc

theorem takeDigits_of_digits_append (a r : List Char)
    (ha : ∀ c ∈ a, isDigitChar c = true)
    (hr : ∀ c r2, r = c :: r2 → isDigitChar c = false) :
    takeDigits (a ++ r) = (a, r) := by
  induction a with
  | nil =>
    simp only [List.nil_append]
    cases r with
    | nil => rfl
    | cons c r2 => simp [takeDigits, hr c r2 rfl]
  | cons x a2 ih =>
    have hx : isDigitChar x = true := ha x (List.mem_cons_self x a2)
    have ih2 := ih (fun c hc => ha c (List.mem_cons_of_mem x hc))
    simp [takeDigits, hx, ih2]

theorem takeDigits_digits_dot (a r : List Char)
    (ha : ∀ c ∈ a, isDigitChar c = true) :
    takeDigits (a ++ '.' :: r) = (a, '.' :: r) := by
  refine takeDigits_of_digits_append a ('.' :: r) ha ?_
  intro c r2 h
  cases h
  rfl

theorem takeDigits_fst_ne_nil (c0 : Char) (rest : List Char)
    (h : isDigitChar c0 = true) :
    (takeDigits (c0 :: rest)).1.isEmpty = false := by
  simp [takeDigits, h]

theorem isDigitString_iff (p : List Char) :
    isDigitString p = true ↔ p ≠ [] ∧ ∀ c ∈ p, isDigitChar c = true := by
  simp [isDigitString, List.all_eq_true, List.isEmpty_iff]

theorem dot_not_digit : isDigitChar '.' = false := rfl

theorem matchSemverAt_sound (l m : List Char) (h : matchSemverAt l = some m) :
    SemverShape m ∧ ∃ rest, l = m ++ rest := by
  unfold matchSemverAt at h
  rcases e1 : takeDigits l with ⟨a, r1⟩
  rw [e1] at h
  by_cases ha : a.isEmpty
  · simp [ha] at h
  · simp only [ha, if_false, Bool.false_eq_true] at h
    cases r1 with
    | nil => simp at h
    | cons c1 r2 =>
      by_cases hc1 : c1 = '.'
      · subst hc1
        simp only [if_true] at h
        rcases e2 : takeDigits r2 with ⟨b, r3⟩
        rw [e2] at h
        by_cases hb : b.isEmpty
        · simp [hb] at h
        · simp only [hb, if_false, Bool.false_eq_true] at h
          cases r3 with
          | nil => simp at h
          | cons c2 r4 =>
            by_cases hc2 : c2 = '.'
            · subst hc2
              simp only [if_true] at h
              rcases e3 : takeDigits r4 with ⟨c, r5⟩
              rw [e3] at h
              by_cases hcc : c.isEmpty
              · simp [hcc] at h
              · simp only [hcc, if_false, Bool.false_eq_true, Option.some.injEq] at h
                subst h
                constructor
                · refine ⟨a, b, c, rfl, ?_, ?_, ?_⟩
                  · exact (isDigitString_iff a).mpr
                      ⟨by simpa [List.isEmpty_iff] using ha,
                       by have := takeDigits_all_digits l; rw [e1] at this; exact this⟩
                  · exact (isDigitString_iff b).mpr
                      ⟨by simpa [List.isEmpty_iff] using hb,
                       by have := takeDigits_all_digits r2; rw [e2] at this; exact this⟩
                  · exact (isDigitString_iff c).mpr
                      ⟨by simpa [List.isEmpty_iff] using hcc,
                       by have := takeDigits_all_digits r4; rw [e3] at this; exact this⟩
                · refine ⟨r5, ?_⟩
                  have g1 : a ++ '.' :: r2 = l := by
                    have := takeDigits_append_rest l; rw [e1] at this; exact this
                  have g2 : b ++ '.' :: r4 = r2 := by
                    have := takeDigits_append_rest r2; rw [e2] at this; exact this
                  have g3 : c ++ r5 = r4 := by
                    have := takeDigits_append_rest r4; rw [e3] at this; exact this
                  rw [← g1, ← g2, ← g3]
                  simp
            · simp [hc2] at h
      · simp [hc1] at h

theorem matchSemverAt_of_shape (m post : List Char) (hm : SemverShape m) :
    ∃ m2, matchSemverAt (m ++ post) = some m2 := by
  obtain ⟨a, b, c, rfl, ha, hb, hc⟩ := hm
  obtain ⟨hane, had⟩ := (isDigitString_iff a).mp ha
  obtain ⟨hbne, hbd⟩ := (isDigitString_iff b).mp hb
  obtain ⟨hcne, hcd⟩ := (isDigitString_iff c).mp hc
  have e1 : takeDigits ((a ++ '.' :: (b ++ '.' :: c)) ++ post) =
      (a, '.' :: ((b ++ '.' :: c) ++ post)) := by
    have hre : (a ++ '.' :: (b ++ '.' :: c)) ++ post =
        a ++ '.' :: ((b ++ '.' :: c) ++ post) := by simp
    rw [hre]
    exact takeDigits_digits_dot a _ had
  have e2 : takeDigits (b ++ '.' :: (c ++ post)) = (b, '.' :: (c ++ post)) :=
    takeDigits_digits_dot b _ hbd
  have hc1 : (takeDigits (c ++ post)).1 ≠ [] := by
    cases c with
    | nil => exact absurd rfl hcne
    | cons c0 c2 =>
      simp [takeDigits, hcd c0 (List.mem_cons_self c0 c2)]
  refine ⟨a ++ '.' :: (b ++ '.' :: (takeDigits (c ++ post)).1), ?_⟩
  unfold matchSemverAt
  rw [e1]
  simp [hane, e2, hbne, hc1]

theorem SemverShape.ne_nil (m : List Char) (hm : SemverShape m) : m ≠ [] := by
  obtain ⟨a, b, c, rfl, _, _, _⟩ := hm
  simp

theorem searchSemver_sound (l m : List Char) (h : searchSemver l = some m) :
    ∃ pre post, l = pre ++ (m ++ post) ∧ SemverShape m ∧
      ∀ pre2 m2 post2, l = pre2 ++ (m2 ++ post2) → SemverShape m2 →
        pre.length ≤ pre2.length := by
  induction l with
  | nil => simp [searchSemver] at h
  | cons c cs ih =>
    rw [searchSemver] at h
    cases e : matchSemverAt (c :: cs) with
    | some m0 =>
      rw [e] at h
      simp only [Option.some.injEq] at h
      subst h
      obtain ⟨hshape, rest, hrest⟩ := matchSemverAt_sound (c :: cs) m0 e
      exact ⟨[], rest, by simpa using hrest, hshape,
        fun pre2 m2 post2 _ _ => Nat.zero_le _⟩
    | none =>
      rw [e] at h
      obtain ⟨pre, post, hl, hshape, hmin⟩ := ih h
      refine ⟨c :: pre, post, by simp [hl], hshape, ?_⟩
      intro pre2 m2 post2 heq hshape2
      cases pre2 with
      | nil =>
        exfalso
        simp only [List.nil_append] at heq
        obtain ⟨mm, hmm⟩ := matchSemverAt_of_shape m2 post2 hshape2
        rw [heq, hmm] at e
        exact Option.noConfusion e
      | cons c2 pre2a =>
        simp only [List.cons_append, List.cons.injEq] at heq
        simp only [List.length_cons, Nat.succ_le_succ_iff]
        exact hmin pre2a m2 post2 heq.2 hshape2

theorem searchSemver_complete (l : List Char) (h : ContainsSemver l) :
    ∃ m, searchSemver l = some m := by
  obtain ⟨pre, m, post, rfl, hm⟩ := h
  induction pre with
  | nil =>
    simp only [List.nil_append]
    obtain ⟨m2, hm2⟩ := matchSemverAt_of_shape m post hm
    obtain ⟨c, m1, rfl⟩ := List.exists_cons_of_ne_nil (SemverShape.ne_nil m hm)
    refine ⟨m2, ?_⟩
    simp only [List.cons_append] at hm2 ⊢
    rw [searchSemver, hm2]
  | cons p pre1 ih =>
    obtain ⟨m1, hm1⟩ := ih
    cases e : matchSemverAt (p :: (pre1 ++ (m ++ post))) with
    | some m2 =>
      refine ⟨m2, ?_⟩
      simp only [List.cons_append]
      rw [searchSemver, e]
    | none =>
      refine ⟨m1, ?_⟩
      simp only [List.cons_append]
      rw [searchSemver, e]
      exact hm1

theorem not_contains_of_search_none (l : List Char) (h : searchSemver l = none) :
    ¬ ContainsSemver l := by
  intro hc
  obtain ⟨m, hm⟩ := searchSemver_complete l hc
  rw [h] at hm
  exact Option.noConfusion hm

/-! ## Lemmas: splitting on dots -/

theorem splitDot_ne_nil (l : List Char) : splitDot l ≠ [] := by
  cases l with
  | nil => simp [splitDot]
  | cons c cs =>
    by_cases h : c = '.'
    · simp [splitDot, h]
    · cases e : splitDot cs with
      | nil => simp [splitDot, h, e]
      | cons y ys => simp [splitDot, h, e]

theorem joinDot_splitDot (l : List Char) : joinDot (splitDot l) = l := by
  induction l with
  | nil => rfl
  | cons c cs ih =>
    by_cases h : c = '.'
    · subst h
      simp only [splitDot, if_pos rfl]
      cases e : splitDot cs with
      | nil => exact absurd e (splitDot_ne_nil cs)
      | cons y ys =>
        rw [e] at ih
        cases ys with
        | nil =>
          simp only [joinDot, List.nil_append]
          simp only [joinDot] at ih
          rw [ih]
        | cons z zs =>
          simp only [joinDot, List.nil_append] at ih ⊢
          rw [ih]
    · simp only [splitDot, h, if_false]
      cases e : splitDot cs with
      | nil => exact absurd e (splitDot_ne_nil cs)
      | cons y ys =>
        rw [e] at ih
        cases ys with
        | nil =>
          simp only [joinDot] at ih ⊢
          rw [ih]
        | cons z zs =>
          simp only [joinDot, List.cons_append] at ih ⊢
          rw [← ih]

theorem splitDot_of_nodot (a : List Char) (ha : '.' ∉ a) : splitDot a = [a] := by
  induction a with
  | nil => rfl
  | cons c cs ih =>
    have hc : ¬ c = '.' := fun h => ha (h ▸ List.mem_cons_self c cs)
    have ih2 := ih (fun h => ha (List.mem_cons_of_mem c h))
    simp [splitDot, hc, ih2]

theorem splitDot_append_dot (a r : List Char) (ha : '.' ∉ a) :
    splitDot (a ++ '.' :: r) = a :: splitDot r := by
  induction a with
  | nil => simp [splitDot]
  | cons x a2 ih =>
    have hx : ¬ x = '.' := fun h => ha (h ▸ List.mem_cons_self x a2)
    have ih2 := ih (fun h => ha (List.mem_cons_of_mem x h))
    simp [splitDot, hx, ih2]

theorem dot_not_mem_of_digits (a : List Char) (ha : isDigitString a = true) :
    '.' ∉ a := by
  intro hmem
  have := ((isDigitString_iff a).mp ha).2 '.' hmem
  simp [isDigitChar] at this

theorem parse_semver_ok_iff (s : String) :
    (∃ t, parse_semver s = .ok t) ↔ SemverShape s.data := by
  constructor
  · rintro ⟨t, ht⟩
    unfold parse_semver at ht
    split at ht
    case h_1 p0 p1 p2 e =>
      split at ht
      case isTrue hd =>
        have hs : s.data = p0 ++ '.' :: (p1 ++ '.' :: p2) := by
          have hj := joinDot_splitDot s.data
          rw [e] at hj
          simpa [joinDot] using hj.symm
        simp only [Bool.and_eq_true] at hd
        exact ⟨p0, p1, p2, hs, hd.1.1, hd.1.2, hd.2⟩
      case isFalse hd => exact Except.noConfusion ht
    case h_2 => exact Except.noConfusion ht
  · rintro ⟨a, b, c, hs, ha, hb, hc⟩
    have e : splitDot s.data = [a, b, c] := by
      rw [hs, splitDot_append_dot a _ (dot_not_mem_of_digits a ha),
        splitDot_append_dot b _ (dot_not_mem_of_digits b hb),
        splitDot_of_nodot c (dot_not_mem_of_digits c hc)]
    refine ⟨(digitsToNat a, digitsToNat b, digitsToNat c), ?_⟩
    unfold parse_semver
    rw [e]
    simp [ha, hb, hc]

theorem tupleLt_iff (a b : Nat × Nat × Nat) :
    tupleLt a b = true ↔
      (a.1 < b.1 ∨
        (a.1 = b.1 ∧
          (a.2.1 < b.2.1 ∨ (a.2.1 = b.2.1 ∧ a.2.2 < b.2.2)))) := by
  simp [tupleLt]

theorem not_shape_of_parse_toOption_none (s : String)
    (h : (parse_semver s).toOption = none) : ¬ SemverShape s.data := by
  intro hs
  obtain ⟨t, ht⟩ := (parse_semver_ok_iff s).mpr hs
  rw [ht] at h
  simp [Except.toOption] at h

/-- Claim C1: for every installed/latest pair on which
`should_upgrade_agent_browser` completes, it returns `true` exactly when the
installed version is absent or both versions parse to triples with the
installed triple strictly smaller under component-wise (lexicographic)
numeric comparison. -/
theorem upgrade_decision_matches_spec (installed : Option String)
    (latest : String) (b : Bool)
    (h : should_upgrade_agent_browser installed latest = .ok b) :
    b = true ↔ specUpgradeNeeded installed latest := by
  cases installed with
  | none =>
    simp only [should_upgrade_agent_browser, Except.ok.injEq] at h
    subst h
    simp [specUpgradeNeeded]
  | some v =>
    simp only [should_upgrade_agent_browser] at h
    cases e1 : parse_semver v with
    | error m => rw [e1] at h; exact Except.noConfusion h
    | ok ta =>
      rw [e1] at h
      cases e2 : parse_semver latest with
      | error m => rw [e2] at h; exact Except.noConfusion h
      | ok tb =>
        rw [e2] at h
        simp only [Except.ok.injEq] at h
        subst h
        constructor
        · intro hb
          exact Or.inr ⟨v, ta, tb, rfl, e1, e2, (tupleLt_iff ta tb).mp hb⟩
        · rintro (hnone | ⟨v2, ta2, tb2, hv, hp1, hp2, hlt⟩)
          · exact Option.noConfusion hnone
          · obtain rfl : v2 = v := (Option.some.injEq v2 v).mp hv.symm
            rw [e1] at hp1
            rw [e2] at hp2
            obtain rfl : ta2 = ta := ((Except.ok.injEq ta ta2).mp hp1).symm
            obtain rfl : tb2 = tb := ((Except.ok.injEq tb tb2).mp hp2).symm
            exact (tupleLt_iff _ _).mpr hlt

/-- Witness for Claim C1: concrete evaluation of the spec examples
`0.13.9 < 0.14.0` (upgrade) and `0.15.0` vs `0.14.0` (no upgrade). -/
theorem upgrade_decision_matches_spec_witness :
    should_upgrade_agent_browser (some "0.13.9") "0.14.0" = .ok true ∧
      (true = true ↔ specUpgradeNeeded (some "0.13.9") "0.14.0") ∧
      should_upgrade_agent_browser (some "0.15.0") "0.14.0" = .ok false :=
  ⟨by rfl,
   upgrade_decision_matches_spec (some "0.13.9") "0.14.0" true (by rfl),
   by rfl⟩

/-- Claim C10: when the installed version is `None`,
`should_upgrade_agent_browser` returns `true` for every latest string,
without parsing it. -/
theorem missing_installed_skips_parsing (latest : String) :
    should_upgrade_agent_browser none latest = .ok true := rfl

/-- Claim C8: a string that is not of the exact three-component dotted
digit shape is rejected by `parse_semver`, and a text containing no
`\d+\.\d+\.\d+` substring is rejected by `extract_semver`. -/
theorem unparsable_version_rejected (s t src : String)
    (hs : ¬ SemverShape s.data) (ht : ¬ ContainsSemver t.data) :
    (∃ m, parse_semver s = .error m) ∧ (∃ m, extract_semver t src = .error m) := by
  constructor
  · cases e : parse_semver s with
    | error m => exact ⟨m, rfl⟩
    | ok tt => exact absurd ((parse_semver_ok_iff s).mp ⟨tt, e⟩) hs
  · cases e : searchSemver t.data with
    | some m =>
      obtain ⟨pre, post, hdec, hshape, _⟩ := searchSemver_sound t.data m e
      exact absurd ⟨pre, m, post, hdec, hshape⟩ ht
    | none =>
      unfold extract_semver
      rw [e]
      exact ⟨_, rfl⟩

/-- Witness for Claim C8: `1.2` fails `parse_semver` and `hello` fails
`extract_semver`. -/
theorem unparsable_version_rejected_witness :
    (∃ m, parse_semver "1.2" = .error m) ∧
      (∃ m, extract_semver "hello" "npm view agent-browser version" = .error m) :=
  unparsable_version_rejected "1.2" "hello" "npm view agent-browser version"
    (not_shape_of_parse_toOption_none "1.2" (by rfl))
    (not_contains_of_search_none _ (by rfl))

/-- Claim C9: `extract_semver` succeeds on any text containing a
`\d+\.\d+\.\d+` substring, and returns the leftmost match (no semver-shaped
substring starts strictly earlier than the returned one). -/
theorem extract_semver_tolerates_surrounding_text (t src : String)
    (h : ContainsSemver t.data) :
    ∃ v pre post, extract_semver t src = .ok v ∧
      t.data = pre ++ (v.data ++ post) ∧ SemverShape v.data ∧
      ∀ pre2 m2 post2, t.data = pre2 ++ (m2 ++ post2) → SemverShape m2 →
        pre.length ≤ pre2.length := by
  obtain ⟨m, hm⟩ := searchSemver_complete t.data h
  obtain ⟨pre, post, hdec, hshape, hmin⟩ := searchSemver_sound t.data m hm
  refine ⟨String.mk m, pre, post, ?_, hdec, hshape, hmin⟩
  unfold extract_semver
  rw [hm]

/-- Witness for Claim C9: `v1.2.3-beta` and `1.2.3.4` both succeed and
yield `1.2.3`. -/
theorem extract_semver_tolerates_surrounding_text_witness :
    ContainsSemver ("v1.2.3-beta" : String).data ∧
      (∃ v pre post,
        extract_semver "v1.2.3-beta" "agent-browser --version" = .ok v ∧
          ("v1.2.3-beta" : String).data = pre ++ (v.data ++ post) ∧
          SemverShape v.data ∧
          ∀ pre2 m2 post2,
            ("v1.2.3-beta" : String).data = pre2 ++ (m2 ++ post2) →
              SemverShape m2 → pre.length ≤ pre2.length) ∧
      extract_semver "v1.2.3-beta" "agent-browser --version" = .ok "1.2.3" ∧
      extract_semver "1.2.3.4" "npm view agent-browser version" = .ok "1.2.3" := by
  have hc : ContainsSemver ("v1.2.3-beta" : String).data :=
    ⟨"v".data, "1.2.3".data, "-beta".data, by decide,
      "1".data, "2".data, "3".data, by decide, by rfl, by rfl, by rfl⟩
  exact ⟨hc,
    extract_semver_tolerates_surrounding_text "v1.2.3-beta"
      "agent-browser --version" hc,
    by rfl, by rfl⟩

/-! ## Lemmas: the file-system model and path validation -/

theorem lookupFS_insert_self (fs : FS) (k : List String) (e : FSEntry) :
    lookupFS (insertFS fs k e) k = some e := by
  simp [insertFS, lookupFS]

theorem lookupFS_insert_ne (fs : FS) (k q : List String) (e : FSEntry)
    (h : k ≠ q) : lookupFS (insertFS fs k e) q = lookupFS fs q := by
  simp [insertFS, lookupFS, h]

theorem validate_ok_file (repo : FS) (p : PPath) (op : String) (u : Unit)
    (h : validate_relative_file repo p op = .ok u) :
    ∃ c, lookupFS repo p.parts = some (.file c) := by
  unfold validate_relative_file at h
  by_cases hcond : (p.absolute || p.parts.contains "..") = true
  · rw [if_pos hcond] at h
    exact Except.noConfusion h
  · rw [if_neg hcond] at h
    cases e : lookupFS repo p.parts with
    | none => rw [e] at h; exact Except.noConfusion h
    | some entry =>
      cases entry with
      | dir => rw [e] at h; exact Except.noConfusion h
      | file c => exact ⟨c, rfl⟩

/-- Claim C4: `validate_relative_file` rejects every absolute path and every
path with a `..` component, for every repository state; consequently every
path it accepts is relative and free of parent-traversal segments. -/
theorem validation_rejects_escaping_paths (repo : FS) (p : PPath) (op : String) :
    ((p.absolute = true ∨ ".." ∈ p.parts) →
      ∃ m, validate_relative_file repo p op = .error m) ∧
    (∀ u, validate_relative_file repo p op = .ok u →
      p.absolute = false ∧ ".." ∉ p.parts) := by
  constructor
  · intro hbad
    have hcond : (p.absolute || p.parts.contains "..") = true := by
      rcases hbad with h | h
      · simp [h]
      · simp [h]
    unfold validate_relative_file
    rw [if_pos hcond]
    exact ⟨_, rfl⟩
  · intro u hu
    unfold validate_relative_file at hu
    by_cases hcond : (p.absolute || p.parts.contains "..") = true
    · rw [if_pos hcond] at hu
      exact Except.noConfusion hu
    · simp at hcond
      exact hcond

/-- Witness for Claim C4: the parent-traversal path `../x` is rejected on a
concrete repository. -/
theorem validation_rejects_escaping_paths_witness :
    (pathOfString "../x").absolute = true ∨
        ".." ∈ (pathOfString "../x").parts →
      ∃ m, validate_relative_file sampleRepo (pathOfString "../x")
        "Validate allowlisted file" = .error m :=
  fun h =>
    (validation_rejects_escaping_paths sampleRepo (pathOfString "../x")
      "Validate allowlisted file").1 h

/-- Claim C5: a successful `sync_files` run copies exactly the listed files
(each destination path afterwards holds the repository file at that relative
path), counts them all, and leaves every destination path outside the list
unchanged. -/
theorem sync_files_copies_exactly (repo : FS) (files : List PPath)
    (dest dest2 : FS) (n : Nat)
    (h : sync_files repo dest files = (dest2, .ok n)) :
    n = files.length ∧
      (∀ p ∈ files, lookupFS dest2 p.parts = lookupFS repo p.parts) ∧
      (∀ q, (∀ p ∈ files, p.parts ≠ q) →
        lookupFS dest2 q = lookupFS dest q) := by
  induction files generalizing dest dest2 n with
  | nil =>
    unfold sync_files at h
    have h1 : dest = dest2 := congrArg Prod.fst h
    have h2 : (0 : Nat) = n := by
      have := congrArg Prod.snd h
      simpa using this
    subst h1
    subst h2
    exact ⟨rfl, by simp, fun q _ => rfl⟩
  | cons p rest ih =>
    unfold sync_files at h
    cases hv : validate_relative_file repo p "Validate source file before copy" with
    | error e =>
      rw [hv] at h
      have := congrArg Prod.snd h
      simp at this
    | ok u =>
      rw [hv] at h
      obtain ⟨c, hc⟩ := validate_ok_file repo p _ u hv
      rw [hc] at h
      dsimp only at h
      cases hrec : sync_files repo (insertFS dest p.parts (.file c)) rest with
      | mk d res =>
        rw [hrec] at h
        cases res with
        | error e =>
          have := congrArg Prod.snd h
          simp at this
        | ok n2 =>
          have hd : d = dest2 := congrArg Prod.fst h
          have hn : n2 + 1 = n := by
            have := congrArg Prod.snd h
            simpa using this
          subst hd
          subst hn
          obtain ⟨hlen, hcopy, hframe⟩ := ih _ _ _ hrec
          refine ⟨by simp [hlen], ?_, ?_⟩
          · intro p2 hp2
            rcases List.mem_cons.mp hp2 with rfl | hp2r
            · by_cases hagain : ∀ p3 ∈ rest, p3.parts ≠ p2.parts
              · rw [hframe p2.parts hagain,
                  lookupFS_insert_self dest p2.parts (.file c), hc]
              · push_neg at hagain
                obtain ⟨p3, hp3mem, hp3eq⟩ := hagain
                rw [← hp3eq, hcopy p3 hp3mem]
            · exact hcopy p2 hp2r
          · intro q hq
            have hqp : p.parts ≠ q := hq p (List.mem_cons_self p rest)
            rw [hframe q (fun p3 hp3 => hq p3 (List.mem_cons_of_mem p hp3)),
              lookupFS_insert_ne dest p.parts q (.file c) hqp]

/-- Witness for Claim C5: copying `config.toml` and `skills/demo.md` into a
destination that already holds an unrelated file and an old copy. -/
theorem sync_files_copies_exactly_witness :
    sync_files sampleRepo sampleDest
        [pathOfString "config.toml", pathOfString "skills/demo.md"] =
      (sampleDestAfter, .ok 2) ∧
      (2 = ([pathOfString "config.toml", pathOfString "skills/demo.md"] :
          List PPath).length ∧
        (∀ p ∈ ([pathOfString "config.toml", pathOfString "skills/demo.md"] :
            List PPath),
          lookupFS sampleDestAfter p.parts = lookupFS sampleRepo p.parts) ∧
        (∀ q, (∀ p ∈ ([pathOfString "config.toml", pathOfString "skills/demo.md"] :
            List PPath), p.parts ≠ q) →
          lookupFS sampleDestAfter q = lookupFS sampleDest q)) :=
  ⟨by rfl,
   sync_files_copies_exactly sampleRepo
     [pathOfString "config.toml", pathOfString "skills/demo.md"]
     sampleDest sampleDestAfter 2 (by rfl)⟩

theorem validateAllowlist_error_of_mem (repo : FS) (l : List PPath) (p : PPath)
    (e : String) (hmem : p ∈ l)
    (hp : validate_relative_file repo p "Validate allowlisted file" = .error e) :
    ∃ m, validateAllowlist repo l = .error m := by
  induction l with
  | nil => exact absurd hmem (List.not_mem_nil p)
  | cons q rest ih =>
    cases hv : validate_relative_file repo q "Validate allowlisted file" with
    | error m =>
      refine ⟨m, ?_⟩
      unfold validateAllowlist
      rw [hv]
    | ok u =>
      rcases List.mem_cons.mp hmem with rfl | hmem2
      · rw [hv] at hp
        exact Except.noConfusion hp
      · obtain ⟨m, hm⟩ := ih hmem2
        refine ⟨m, ?_⟩
        unfold validateAllowlist
        rw [hv]
        dsimp only
        rw [hm]

/-- Claim C3: when any allowlisted file fails validation (missing, not a
regular file, or an invalid path), the local-to-destination workflow fails
already in the collection step and the destination tree is unchanged — no
copy is performed. -/
theorem missing_allowlisted_file_aborts_before_copy (repo : FS)
    (gitOutput : List String) (dest : FS) (p : PPath) (e : String)
    (hmem : p ∈ SYNC_FILE_TARGETS)
    (hp : validate_relative_file repo p "Validate allowlisted file" = .error e) :
    ∃ m, collect_sync_files repo gitOutput = .error m ∧
      execute_workflow repo gitOutput dest = (dest, .error m) := by
  obtain ⟨m, hm⟩ :=
    validateAllowlist_error_of_mem repo SYNC_FILE_TARGETS p e hmem hp
  have hcol : collect_sync_files repo gitOutput = .error m := by
    unfold collect_sync_files
    rw [hm]
  refine ⟨m, hcol, ?_⟩
  unfold execute_workflow
  rw [hcol]

/-- Witness for Claim C3: a repository missing `config.toml` makes
collection fail and leaves a concrete destination untouched. -/
theorem missing_allowlisted_file_aborts_before_copy_witness :
    ∃ m, collect_sync_files sampleRepoMissing ["skills/demo.md"] = .error m ∧
      execute_workflow sampleRepoMissing ["skills/demo.md"] sampleDest =
        (sampleDest, .error m) :=
  missing_allowlisted_file_aborts_before_copy sampleRepoMissing
    ["skills/demo.md"] sampleDest (pathOfString "config.toml")
    ("Validate allowlisted file failed. Source file is missing: config.toml" ++
      ". Suggested fix: create the file or update the sync allowlist.")
    (by decide) (by rfl)

theorem validateAllowlist_ok (repo : FS) (l l2 : List PPath)
    (h : validateAllowlist repo l = .ok l2) : l2 = l := by
  induction l generalizing l2 with
  | nil =>
    unfold validateAllowlist at h
    simp only [Except.ok.injEq] at h
    exact h.symm
  | cons q rest ih =>
    unfold validateAllowlist at h
    cases hv : validate_relative_file repo q "Validate allowlisted file" with
    | error m => rw [hv] at h; exact Except.noConfusion h
    | ok u =>
      rw [hv] at h
      dsimp only at h
      cases hrec : validateAllowlist repo rest with
      | error m => rw [hrec] at h; exact Except.noConfusion h
      | ok l3 =>
        rw [hrec] at h
        simp only [Except.ok.injEq] at h
        rw [← h, ih l3 hrec]

theorem collectTrackedLines_ok (repo : FS) (out : List String) (l : List PPath)
    (h : collectTrackedLines repo out = .ok l) : l = parsedGitLines out := by
  induction out generalizing l with
  | nil =>
    unfold collectTrackedLines at h
    simp only [Except.ok.injEq] at h
    rw [← h]
    rfl
  | cons line rest ih =>
    simp only [collectTrackedLines] at h
    by_cases he : (strip line).data.isEmpty = true
    · rw [if_pos he] at h
      rw [ih l h]
      simp [parsedGitLines, he]
    · rw [if_neg he] at h
      cases hv : validate_relative_file repo (pathOfString (strip line))
          "Validate git-tracked file entry" with
      | error m => rw [hv] at h; exact Except.noConfusion h
      | ok u =>
        rw [hv] at h
        dsimp only at h
        cases hrec : collectTrackedLines repo rest with
        | error m => rw [hrec] at h; exact Except.noConfusion h
        | ok l3 =>
          rw [hrec] at h
          simp only [Except.ok.injEq] at h
          rw [← h, ih l3 hrec]
          simp [parsedGitLines, he]

theorem sortedUnique_sorted (l : List PPath) :
    List.Sorted posixLe (sortedUnique l) :=
  List.sorted_insertionSort posixLe l.dedup

theorem sortedUnique_nodup (l : List PPath) : (sortedUnique l).Nodup :=
  ((List.perm_insertionSort posixLe l.dedup).nodup_iff).mpr l.nodup_dedup

theorem mem_sortedUnique (l : List PPath) (p : PPath) :
    p ∈ sortedUnique l ↔ p ∈ l := by
  unfold sortedUnique
  rw [List.mem_insertionSort]
  exact List.mem_dedup

/-- Claim C2: a successful `collect_sync_files` result is sorted by the
posix path string, duplicate-free, and contains exactly the allowlisted
files together with the paths parsed from the `git ls-files` output (so it
is the deduplicated sorted union, deterministic in the inputs). -/
theorem collect_sync_files_spec (repo : FS) (gitOutput : List String)
    (l : List PPath) (h : collect_sync_files repo gitOutput = .ok l) :
    List.Sorted posixLe l ∧ l.Nodup ∧
      (∀ p, p ∈ l ↔ p ∈ SYNC_FILE_TARGETS ∨ p ∈ parsedGitLines gitOutput) := by
  unfold collect_sync_files at h
  cases ha : validateAllowlist repo SYNC_FILE_TARGETS with
  | error e => rw [ha] at h; exact Except.noConfusion h
  | ok selected =>
    rw [ha] at h
    dsimp only at h
    cases ht : collect_tracked_directory_files repo gitOutput with
    | error e => rw [ht] at h; exact Except.noConfusion h
    | ok tracked =>
      rw [ht] at h
      simp only [Except.ok.injEq] at h
      subst h
      obtain rfl := validateAllowlist_ok repo _ selected ha
      unfold collect_tracked_directory_files at ht
      cases hc : collectTrackedLines repo gitOutput with
      | error e => rw [hc] at ht; exact Except.noConfusion ht
      | ok raw =>
        rw [hc] at ht
        simp only [Except.ok.injEq] at ht
        subst ht
        obtain rfl := collectTrackedLines_ok repo gitOutput raw hc
        refine ⟨sortedUnique_sorted _, sortedUnique_nodup _, ?_⟩
        intro p
        rw [mem_sortedUnique]
        simp [List.mem_append, mem_sortedUnique]

/-- Witness for Claim C2: a concrete repository and `git ls-files` output
(with a blank line and a duplicate entry) produce the sorted, deduplicated
union. -/
theorem collect_sync_files_spec_witness :
    collect_sync_files sampleRepo ["skills/demo.md", "", " skills/demo.md "] =
      .ok [⟨false, ["AGENTS.md"]⟩, ⟨false, ["config.toml"]⟩,
        ⟨false, ["notify.ps1"]⟩, ⟨false, ["skills", "demo.md"]⟩] ∧
      (List.Sorted posixLe
          [⟨false, ["AGENTS.md"]⟩, ⟨false, ["config.toml"]⟩,
            ⟨false, ["notify.ps1"]⟩, ⟨false, ["skills", "demo.md"]⟩] ∧
        List.Nodup
          [(⟨false, ["AGENTS.md"]⟩ : PPath), ⟨false, ["config.toml"]⟩,
            ⟨false, ["notify.ps1"]⟩, ⟨false, ["skills", "demo.md"]⟩] ∧
        (∀ p, p ∈ ([⟨false, ["AGENTS.md"]⟩, ⟨false, ["config.toml"]⟩,
            ⟨false, ["notify.ps1"]⟩, ⟨false, ["skills", "demo.md"]⟩] :
              List PPath) ↔
          p ∈ SYNC_FILE_TARGETS ∨
            p ∈ parsedGitLines ["skills/demo.md", "", " skills/demo.md "])) :=
  ⟨by rfl,
   collect_sync_files_spec sampleRepo ["skills/demo.md", "", " skills/demo.md "]
     [⟨false, ["AGENTS.md"]⟩, ⟨false, ["config.toml"]⟩,
       ⟨false, ["notify.ps1"]⟩, ⟨false, ["skills", "demo.md"]⟩] (by rfl)⟩

/-! ## Lemmas: substring containment and the command runner -/

theorem scontains_self (t : String) : SContains t t :=
  ⟨[], [], by simp⟩

theorem scontains_append_left (s t u : String) (h : SContains s u) :
    SContains (s ++ t) u := by
  obtain ⟨l, r, hd⟩ := h
  exact ⟨l, r ++ t.data, by simp [String.data_append, hd]⟩

theorem scontains_append_right (s t u : String) (h : SContains t u) :
    SContains (s ++ t) u := by
  obtain ⟨l, r, hd⟩ := h
  exact ⟨s.data ++ l, r, by simp [String.data_append, hd]⟩

/-- Claim C6: whenever a command completes with a non-zero exit code, both
command runners raise one structured error whose message embeds the
operation label, the rendered command line, the exit code, both captured
streams (via `orPlaceholder`, which substitutes the `<empty>` placeholder
for a blank stream), and the remediation hint; on exit code zero the
trimmed stdout is returned and no error is raised. -/
theorem run_command_failure_reports_context (args : List String)
    (operation res : String) (c : CompletedProcess) :
    (c.returncode ≠ 0 →
      (∃ m, run_command_local args operation c = .error m ∧
        SContains m operation ∧ SContains m (list2cmdline args) ∧
        SContains m (toString c.returncode) ∧
        SContains m (orPlaceholder c.stderr) ∧
        SContains m (orPlaceholder c.stdout) ∧
        SContains m
          "Suggested fix: verify repository state, command availability, and file permissions.") ∧
      (∃ m, run_command_remote args operation (some res) c = .error m ∧
        SContains m operation ∧
        SContains m (list2cmdline (res :: args.tail)) ∧
        SContains m (toString c.returncode) ∧
        SContains m (orPlaceholder c.stderr) ∧
        SContains m (orPlaceholder c.stdout) ∧
        SContains m
          "Suggested fix: verify network access, repository permissions, and PATH configuration.")) ∧
    ((strip c.stderr).data.isEmpty = true → orPlaceholder c.stderr = "<empty>") ∧
    (c.returncode = 0 →
      run_command_local args operation c = .ok (strip c.stdout) ∧
      run_command_remote args operation (some res) c = .ok (strip c.stdout)) := by
  refine ⟨?_, ?_, ?_⟩
  · intro h
    constructor
    · have hm : run_command_local args operation c =
          .error (operation ++ " failed.\nCommand: " ++ list2cmdline args ++
            "\nExit code: " ++ toString c.returncode ++
            "\nstderr: " ++ orPlaceholder c.stderr ++
            "\nstdout: " ++ orPlaceholder c.stdout ++ "\n" ++
            "Suggested fix: verify repository state, command availability, and file permissions.") := by
        unfold run_command_local
        rw [if_neg h]
      refine ⟨_, hm, ?_, ?_, ?_, ?_, ?_, ?_⟩
      · apply scontains_append_left
        apply scontains_append_left
        apply scontains_append_left
        apply scontains_append_left
        apply scontains_append_left
        apply scontains_append_left
        apply scontains_append_left
        apply scontains_append_left
        apply scontains_append_left
        apply scontains_append_left
        exact scontains_self operation
      · apply scontains_append_left
        apply scontains_append_left
        apply scontains_append_left
        apply scontains_append_left
        apply scontains_append_left
        apply scontains_append_left
        apply scontains_append_left
        apply scontains_append_left
        apply scontains_append_right
        exact scontains_self _
      · apply scontains_append_left
        apply scontains_append_left
        apply scontains_append_left
        apply scontains_append_left
        apply scontains_append_left
        apply scontains_append_left
        apply scontains_append_right
        exact scontains_self _
      · apply scontains_append_left
        apply scontains_append_left
        apply scontains_append_left
        apply scontains_append_left
        apply scontains_append_right
        exact scontains_self _
      · apply scontains_append_left
        apply scontains_append_left
        apply scontains_append_right
        exact scontains_self _
      · apply scontains_append_right
        exact scontains_self _
    · have hm : run_command_remote args operation (some res) c =
          .error (operation ++ " failed.\nCommand: " ++
            list2cmdline (res :: args.tail) ++
            "\nExit code: " ++ toString c.returncode ++
            "\nstderr: " ++ orPlaceholder c.stderr ++
            "\nstdout: " ++ orPlaceholder c.stdout ++ "\n" ++
            "Suggested fix: verify network access, repository permissions, and PATH configuration.") := by
        unfold run_command_remote
        dsimp only
        rw [if_neg h]
      refine ⟨_, hm, ?_, ?_, ?_, ?_, ?_, ?_⟩
      · apply scontains_append_left
        apply scontains_append_left
        apply scontains_append_left
        apply scontains_append_left
        apply scontains_append_left
        apply scontains_append_left
        apply scontains_append_left
        apply scontains_append_left
        apply scontains_append_left
        apply scontains_append_left
        exact scontains_self operation
      · apply scontains_append_left
        apply scontains_append_left
        apply scontains_append_left
        apply scontains_append_left
        apply scontains_append_left
        apply scontains_append_left
        apply scontains_append_left
        apply scontains_append_left
        apply scontains_append_right
        exact scontains_self _
      · apply scontains_append_left
        apply scontains_append_left
        apply scontains_append_left
        apply scontains_append_left
        apply scontains_append_left
        apply scontains_append_left
        apply scontains_append_right
        exact scontains_self _
      · apply scontains_append_left
        apply scontains_append_left
        apply scontains_append_left
        apply scontains_append_left
        apply scontains_append_right
        exact scontains_self _
      · apply scontains_append_left
        apply scontains_append_left
        apply scontains_append_right
        exact scontains_self _
      · apply scontains_append_right
        exact scontains_self _
  · intro he
    unfold orPlaceholder
    rw [if_pos he]
  · intro h0
    constructor
    · unfold run_command_local
      rw [if_pos h0]
    · unfold run_command_remote
      dsimp only
      rw [if_pos h0]

/-- Witness for Claim C6: a failing `git clone` (exit code 1) and a
successful run (exit code 0, padded stdout) at concrete inputs. -/
theorem run_command_failure_reports_context_witness :
    ((1 : Int) ≠ 0 →
      (∃ m, run_command_local ["git", "clone"] "clone repo"
          ⟨1, "", "fatal: not found"⟩ = .error m ∧
        SContains m "clone repo" ∧
        SContains m (list2cmdline ["git", "clone"]) ∧
        SContains m (toString (1 : Int)) ∧
        SContains m (orPlaceholder "fatal: not found") ∧
        SContains m (orPlaceholder "") ∧
        SContains m
          "Suggested fix: verify repository state, command availability, and file permissions.") ∧
      (∃ m, run_command_remote ["git", "clone"] "clone repo"
          (some "/usr/bin/git") ⟨1, "", "fatal: not found"⟩ = .error m ∧
        SContains m "clone repo" ∧
        SContains m (list2cmdline ["/usr/bin/git", "clone"]) ∧
        SContains m (toString (1 : Int)) ∧
        SContains m (orPlaceholder "fatal: not found") ∧
        SContains m (orPlaceholder "") ∧
        SContains m
          "Suggested fix: verify network access, repository permissions, and PATH configuration.")) ∧
      run_command_local ["git", "status"] "status" ⟨0, " clean \n", ""⟩ =
        .ok "clean" := by
  constructor
  · intro h
    exact (run_command_failure_reports_context ["git", "clone"] "clone repo"
      "/usr/bin/git" ⟨1, "", "fatal: not found"⟩).1 h
  · exact ((run_command_failure_reports_context ["git", "status"] "status"
      "/usr/bin/git" ⟨0, " clean \n", ""⟩).2.2 rfl).1

/-- Claim C7: on a completed `maintain_agent_browser` run, the
`agent-browser install` step is executed exactly when the global npm
install was performed; when the CLI is already up to date both steps are
skipped, and when an upgrade is needed both are performed. -/
theorem browser_install_iff_upgrade (env : BrowserEnv) (tr : List BAction)
    (h : maintain_agent_browser env = .ok tr) :
    (BAction.npmInstall ∈ tr ↔ BAction.browserInstall ∈ tr) ∧
    (should_upgrade_agent_browser env.installed0 env.latest = .ok false →
      tr = []) ∧
    (should_upgrade_agent_browser env.installed0 env.latest = .ok true →
      tr = [BAction.npmInstall, BAction.browserInstall]) := by
  unfold maintain_agent_browser at h
  cases hu : should_upgrade_agent_browser env.installed0 env.latest with
  | error e => rw [hu] at h; exact Except.noConfusion h
  | ok b =>
    rw [hu] at h
    cases b with
    | true =>
      dsimp only at h
      by_cases hn : env.npmInstallOk = true
      · rw [if_pos hn] at h
        cases hi : env.installed1 with
        | none => rw [hi] at h; exact Except.noConfusion h
        | some v =>
          rw [hi] at h
          dsimp only at h
          by_cases hb : env.browserInstallOk = true
          · rw [if_pos hb] at h
            simp only [Except.ok.injEq] at h
            subst h
            refine ⟨by simp, ?_, fun _ => rfl⟩
            intro hfalse
            simp at hfalse
          · rw [if_neg hb] at h
            exact Except.noConfusion h
      · rw [if_neg hn] at h
        exact Except.noConfusion h
    | false =>
      dsimp only at h
      simp only [Except.ok.injEq] at h
      subst h
      refine ⟨by simp, fun _ => rfl, ?_⟩
      intro htrue
      simp at htrue

/-- Witness for Claim C7: a missing CLI forces an upgrade, and the
completed run performs both the npm install and the browser install. -/
theorem browser_install_iff_upgrade_witness :
    (BAction.npmInstall ∈ ([.npmInstall, .browserInstall] : List BAction) ↔
      BAction.browserInstall ∈ ([.npmInstall, .browserInstall] : List BAction)) ∧
    (should_upgrade_agent_browser none "1.2.3" = .ok false →
      ([.npmInstall, .browserInstall] : List BAction) = []) ∧
    (should_upgrade_agent_browser none "1.2.3" = .ok true →
      ([.npmInstall, .browserInstall] : List BAction) =
        [BAction.npmInstall, BAction.browserInstall]) :=
  browser_install_iff_upgrade ⟨none, "1.2.3", true, some "1.2.3", true⟩
    [.npmInstall, .browserInstall] (by rfl)

end CodexConfig
